import Mathlib

/-!
Verification model of the `txcache` per-sender transaction list
(`txListForSender`) and the sender registry (`txListBySenderMap`) of the
elrond-go-storage repository. Go's `container/list` doubly-linked list is
embedded as a Lean `List`; the `*list.Element` batch cursor is embedded as an
`Option Nat` position; `int64` atomic counters are embedded as `Int`.
-/

/-- A transaction handler (`data.TransactionHandler`). The `txid` field models
Go object identity (the `==` interface comparison in `findListElementWithTx`
compares pointers); `sndAddr` models `GetSndAddr()`; `nonce` models
`GetNonce()`. The cost fields carry the values of the external pure cost
functions. -/
structure Tx where
  txid : Nat
  sndAddr : Nat
  nonce : Nat
  size : Int
  gas : Int
  fee : Int
deriving DecidableEq, Repr

/-- Modelled from the spec: `estimateTxSize` is an external pure cost function
(`size(tx)`), not present under src/; it is embedded as reading the
transaction's size cost. -/
def estimateTxSize (tx : Tx) : Int := tx.size

/-- Modelled from the spec: `estimateTxGas` is an external pure cost function
(`gas(tx)`), not present under src/. -/
def estimateTxGas (tx : Tx) : Int := tx.gas

/-- Modelled from the spec: `estimateTxFee` is an external pure cost function
(`fee(tx)`), not present under src/. -/
def estimateTxFee (tx : Tx) : Int := tx.fee

/-- A node of the linked list (`txListForSenderNode`): a transaction hash
(embedded as `Nat`) together with the transaction. -/
structure TxNode where
  txHash : Nat
  tx : Tx
deriving DecidableEq, Repr

/-- State of `txListForSender`: the sorted sequence of nodes, the batch-copy
cursor (`copyBatchIndex`, `none` embeds the nil `*list.Element`), and the three
running totals. -/
structure TxListForSender where
  items : List TxNode
  copyBatchIndex : Option Nat
  totalBytes : Int
  totalGas : Int
  totalFee : Int
deriving DecidableEq, Repr

/-- `newTxListForSender`: empty sequence, nil cursor, zero totals. -/
def newTxListForSender : TxListForSender :=
  { items := [], copyBatchIndex := none, totalBytes := 0, totalGas := 0, totalFee := 0 }

/-- `findTxWithLargerNonce`: front-to-back scan for the first element whose
nonce is strictly greater than the given nonce; returns its position. -/
def findTxWithLargerNonce : List TxNode → Nat → Option Nat
  | [], _ => none
  | nd :: rest, nonce =>
    if nd.tx.nonce > nonce then some 0
    else (findTxWithLargerNonce rest nonce).map (· + 1)

/-- `onAddedTransaction`: add the transaction's size, gas and fee to the
running totals. -/
def onAddedTransaction (l : TxListForSender) (tx : Tx) : TxListForSender :=
  { l with
    totalBytes := l.totalBytes + estimateTxSize tx
    totalGas := l.totalGas + estimateTxGas tx
    totalFee := l.totalFee + estimateTxFee tx }

/-- `AddTx`: sorted insert. The new node is inserted immediately before the
first element with a strictly larger nonce (`InsertBefore`), or appended
(`PushBack`) when there is none; then the totals are updated. -/
def AddTx (l : TxListForSender) (txHash : Nat) (tx : Tx) : TxListForSender :=
  let newNode : TxNode := { txHash := txHash, tx := tx }
  let l' :=
    match findTxWithLargerNonce l.items tx.nonce with
    | none => { l with items := l.items ++ [newNode] }
    | some i => { l with items := l.items.insertIdx i newNode }
  onAddedTransaction l' tx

/-- `onRemovedListElement`: exactly as in the source, the removed element's
size is subtracted from `totalBytes`, while BOTH its gas and its fee are
subtracted from `totalGas`; `totalFee` is not touched. -/
def onRemovedListElement (l : TxListForSender) (nd : TxNode) : TxListForSender :=
  { l with
    totalBytes := l.totalBytes - estimateTxSize nd.tx
    totalGas := l.totalGas - estimateTxGas nd.tx - estimateTxFee nd.tx }

/-- `findListElementWithTx`: front-to-back scan comparing each element's
transaction with the target by identity; the scan stops early as soon as a
scanned nonce strictly exceeds the target's nonce. Returns the position and
the node found. -/
def findListElementWithTx : List TxNode → Tx → Option (Nat × TxNode)
  | [], _ => none
  | nd :: rest, txToFind =>
    if nd.tx = txToFind then some (0, nd)
    else if nd.tx.nonce > txToFind.nonce then none
    else (findListElementWithTx rest txToFind).map (fun p => (p.1 + 1, p.2))

/-- `RemoveTx`: locate the element holding `tx`; when found remove it and
update the totals, returning `true`; otherwise return `false` with the state
unchanged. -/
def RemoveTx (l : TxListForSender) (tx : Tx) : Bool × TxListForSender :=
  match findListElementWithTx l.items tx with
  | none => (false, l)
  | some (i, nd) => (true, onRemovedListElement { l with items := l.items.eraseIdx i } nd)

/-- The loop of `RemoveHighNonceTxs`: starting from the back of the list,
while elements remain and fewer than `count` have been removed, remove the
back element, update totals, and record its hash at the current slot of the
result slice. Slots never filled keep the zero value of `[][]byte`, embedded
as `none` (`removedTxHashes := make([][]byte, count)`). -/
def removeHighNonceTxsAux : TxListForSender → Nat → List (Option Nat) × TxListForSender
  | l, 0 => ([], l)
  | l, c + 1 =>
    match l.items.getLast? with
    | none => (List.replicate (c + 1) none, l)
    | some nd =>
      let l' := onRemovedListElement { l with items := l.items.dropLast } nd
      let rest := removeHighNonceTxsAux l' c
      (some nd.txHash :: rest.1, rest.2)

/-- `RemoveHighNonceTxs`: remove `count` transactions from the back of the
list, returning the recorded hash slice (of length `count`). -/
def RemoveHighNonceTxs (l : TxListForSender) (count : Nat) :
    List (Option Nat) × TxListForSender :=
  removeHighNonceTxsAux l count

/-- `copyBatchTo`: when `withReset` is set the cursor is rewound to the front
of the list (nil when the list is empty). If the cursor is nil, nothing is
copied. Otherwise elements are copied from the cursor while the batch size,
the destination capacity and the end of the list are not reached, and the
cursor is advanced past the copied elements. Returns the copied nodes and the
updated state (the Go code writes the copies into caller-supplied buffers and
returns their count). -/
def copyBatchTo (l : TxListForSender) (withReset : Bool)
    (destLen batchSize : Nat) : List TxNode × TxListForSender :=
  let cursor :=
    if withReset then (if l.items.isEmpty then none else some 0)
    else l.copyBatchIndex
  match cursor with
  | none => ([], { l with copyBatchIndex := none })
  | some i =>
    let m := min (min batchSize destLen) (l.items.length - i)
    let newCursor := if i + m < l.items.length then some (i + m) else none
    ((l.items.drop i).take m, { l with copyBatchIndex := newCursor })

/-- A sequence of `copyBatchTo` calls with `withReset = false`, one per
element of `caps` (destination capacity, batch size), concatenating the copied
nodes. -/
def copyRun : TxListForSender → List (Nat × Nat) → List TxNode × TxListForSender
  | l, [] => ([], l)
  | l, c :: cs =>
    let r := copyBatchTo l false c.1 c.2
    let rest := copyRun r.2 cs
    (r.1 ++ rest.1, rest.2)

/-- Total per-call capacity of a sequence of calls:
`Σ min(batchSize, len(destBuffer))`. -/
def capsSum (caps : List (Nat × Nat)) : Nat :=
  (caps.map (fun c => min c.2 c.1)).sum

/-- The batch cursor stands exactly past the first `e` (emitted) elements:
at position `e` when elements remain, nil otherwise. -/
def goodCursor (l : TxListForSender) (e : Nat) : Prop :=
  l.copyBatchIndex = if e < l.items.length then some e else none

/-- An operation on one sender's list. -/
inductive TxOp where
  | add (txHash : Nat) (tx : Tx)
  | remove (tx : Tx)
  | removeHigh (count : Nat)
deriving Repr

/-- Apply one operation to the per-sender list. -/
def applyOp (l : TxListForSender) : TxOp → TxListForSender
  | .add h tx => AddTx l h tx
  | .remove tx => (RemoveTx l tx).2
  | .removeHigh c => (RemoveHighNonceTxs l c).2

/-- Apply a sequence of operations, starting from `l`. -/
def applyOps (l : TxListForSender) (ops : List TxOp) : TxListForSender :=
  ops.foldl applyOp l

/-- The sequence is non-decreasing by nonce. -/
def sortedByNonce (items : List TxNode) : Prop :=
  items.Pairwise (fun a b => a.tx.nonce ≤ b.tx.nonce)

instance (items : List TxNode) : Decidable (sortedByNonce items) :=
  List.instDecidablePairwise items

/-- Sum of the size costs over the current elements. -/
def sumBytes (items : List TxNode) : Int :=
  (items.map (fun nd => estimateTxSize nd.tx)).sum

/-- Sum of the gas costs over the current elements. -/
def sumGas (items : List TxNode) : Int :=
  (items.map (fun nd => estimateTxGas nd.tx)).sum

/-- Sum of the fee costs over the current elements. -/
def sumFee (items : List TxNode) : Int :=
  (items.map (fun nd => estimateTxFee nd.tx)).sum

/-- State of the sender registry (`txListBySenderMap`): the backing index is
embedded as an association list from sender identifier to per-sender list
(`BucketSortedMap` keyed `Get`/`Set`/`Has`/`Remove`/`Clear` semantics), plus
the live-sender counter (`atomic.Counter`, an `int64`). -/
structure TxListBySenderMap where
  backingMap : List (Nat × TxListForSender)
  counter : Int
deriving Repr

/-- `newTxListBySenderMap`: empty backing map, zero counter. -/
def newTxListBySenderMap : TxListBySenderMap :=
  { backingMap := [], counter := 0 }

/-- `getListForSender`: `backingMap.Get(sender)`. -/
def getListForSender (m : TxListBySenderMap) (sender : Nat) : Option TxListForSender :=
  (m.backingMap.find? (fun p => p.1 == sender)).map (fun p => p.2)

/-- `addSender`: create a fresh list for the sender, publish it in the backing
map (`Set`) and increment the live-sender counter. -/
def addSender (m : TxListBySenderMap) (sender : Nat) : TxListBySenderMap :=
  { m with
    backingMap := m.backingMap ++ [(sender, newTxListForSender)]
    counter := m.counter + 1 }

/-- `getOrAddListForSender`: sequential collapse of the double-checked locking
pattern — look the sender up; on a miss (with the registry lock held) re-check
and create. In the sequential embedding the lookup, re-check and creation are
one atomic step. -/
def getOrAddListForSender (m : TxListBySenderMap) (sender : Nat) : TxListBySenderMap :=
  match getListForSender m sender with
  | some _ => m
  | none => addSender m sender

/-- Mutation of the sender's (pointer-shared, in the Go code) list is embedded
as rewriting its entry in the association list. -/
def updateListForSender (bm : List (Nat × TxListForSender)) (sender : Nat)
    (f : TxListForSender → TxListForSender) : List (Nat × TxListForSender) :=
  bm.map (fun p => if p.1 == sender then (p.1, f p.2) else p)

/-- `txListBySenderMap.addTx`: resolve the sender from the transaction, get or
lazily create its list, then delegate to the list's `AddTx`. -/
def mapAddTx (m : TxListBySenderMap) (txHash : Nat) (tx : Tx) : TxListBySenderMap :=
  let m' := getOrAddListForSender m tx.sndAddr
  { m' with backingMap := updateListForSender m'.backingMap tx.sndAddr (fun l => AddTx l txHash tx) }

/-- `removeSender`: if the backing map has the sender (`Has`), remove it
(`Remove`) and decrement the counter, returning `true`; else return `false`. -/
def removeSender (m : TxListBySenderMap) (sender : Nat) : Bool × TxListBySenderMap :=
  if (m.backingMap.find? (fun p => p.1 == sender)).isSome then
    (true,
      { m with
        backingMap := m.backingMap.eraseP (fun p => p.1 == sender)
        counter := m.counter - 1 })
  else (false, m)

/-- `txListBySenderMap.removeTx`: look the sender's list up (absence returns
`false`); delegate to the list's `RemoveTx`; when the list became empty,
remove the sender from the map. -/
def mapRemoveTx (m : TxListBySenderMap) (tx : Tx) : Bool × TxListBySenderMap :=
  match getListForSender m tx.sndAddr with
  | none => (false, m)
  | some l =>
    let r := RemoveTx l tx
    let m' := { m with backingMap := updateListForSender m.backingMap tx.sndAddr (fun _ => r.2) }
    if r.2.items.isEmpty then (r.1, (removeSender m' tx.sndAddr).2)
    else (r.1, m')

/-- `RemoveSendersBulk`: attempt `removeSender` for each identifier, counting
how many actually existed. -/
def removeSendersBulk (m : TxListBySenderMap) (senders : List Nat) :
    Nat × TxListBySenderMap :=
  senders.foldl
    (fun acc s =>
      let r := removeSender acc.2 s
      (if r.1 then acc.1 + 1 else acc.1, r.2))
    (0, m)

/-- `clear`: empty the backing map and reset the counter to zero. -/
def mapClear (_ : TxListBySenderMap) : TxListBySenderMap :=
  { backingMap := [], counter := 0 }

/-- A registry operation. -/
inductive MapOp where
  | addTx (txHash : Nat) (tx : Tx)
  | removeTx (tx : Tx)
  | removeSendersBulk (senders : List Nat)
  | clear
deriving Repr

/-- Apply one registry operation. -/
def applyMapOp (m : TxListBySenderMap) : MapOp → TxListBySenderMap
  | .addTx h tx => mapAddTx m h tx
  | .removeTx tx => (mapRemoveTx m tx).2
  | .removeSendersBulk ss => (removeSendersBulk m ss).2
  | .clear => mapClear m

/-- Apply a sequence of registry operations, starting from `m`. -/
def applyMapOps (m : TxListBySenderMap) (ops : List MapOp) : TxListBySenderMap :=
  ops.foldl applyMapOp m

/-! Interleaving model of the double-checked locking in
`getOrAddListForSender`, for one brand-new sender. Each event is one atomic
step of one thread: the unlocked fast lookup (hit or miss), or the re-check
under the registry lock (hit, or creation on miss). The lock makes the
re-check-and-create step atomic; the backing map's own synchronization makes
the fast lookup atomic. -/

/-- One atomic step of one thread running `getOrAddListForSender`. -/
inductive DclEvent where
  | readHit
  | readMiss
  | recheckHit
  | create
deriving DecidableEq, Repr

/-- Shared state for one sender: whether its list is published in the backing
map, and the live-sender counter. -/
structure DclState where
  present : Bool
  counter : Nat
deriving DecidableEq, Repr

/-- Effect of one event on the shared state: only `create` publishes the list
and increments the counter. -/
def dclStep (s : DclState) : DclEvent → DclState
  | .create => { present := true, counter := s.counter + 1 }
  | _ => s

/-- An event is enabled in a state when its lookup outcome matches the state:
hits find the list published, misses (and creation) find it absent. -/
def dclEventValid (s : DclState) : DclEvent → Bool
  | .readHit => s.present
  | .readMiss => !s.present
  | .recheckHit => s.present
  | .create => !s.present

/-- A run (one interleaving of thread steps, each tagged with its thread id)
is valid when every event is enabled in the state it executes in. -/
def dclRunValid (s : DclState) : List (Nat × DclEvent) → Bool
  | [] => true
  | e :: rest => dclEventValid s e.2 && dclRunValid (dclStep s e.2) rest

/-- Final state of a run. -/
def dclRun (s : DclState) (run : List (Nat × DclEvent)) : DclState :=
  run.foldl (fun st e => dclStep st e.2) s

/-- The projection of a run onto one thread. -/
def threadTrace (t : Nat) (run : List (Nat × DclEvent)) : List DclEvent :=
  (run.filter (fun e => e.1 == t)).map (fun e => e.2)

/-- A thread completed `getOrAddListForSender` when its trace is: a fast-path
hit; or a miss followed by a locked re-check hit; or a miss followed by
creation. -/
def completeTrace (es : List DclEvent) : Bool :=
  es == [.readHit] || es == [.readMiss, .recheckHit] || es == [.readMiss, .create]

/-- A concrete node (nonce 1) used by witnesses. -/
def sampleNode1 : TxNode :=
  { txHash := 10, tx := { txid := 1, sndAddr := 0, nonce := 1, size := 1, gas := 1, fee := 1 } }

/-- A concrete node (nonce 2) used by witnesses. -/
def sampleNode2 : TxNode :=
  { txHash := 11, tx := { txid := 2, sndAddr := 0, nonce := 2, size := 1, gas := 1, fee := 1 } }

/-- A concrete sorted two-element per-sender list used by witnesses. -/
def sampleList2 : TxListForSender :=
  { items := [sampleNode1, sampleNode2], copyBatchIndex := none,
    totalBytes := 2, totalGas := 2, totalFee := 2 }

/-! Lemmas about the sorted insert. -/

/-- Recursive characterization of the position-based insert performed by
`AddTx`: insert before the first element with a strictly larger nonce. -/
def insertNode (nd : TxNode) : List TxNode → List TxNode
  | [] => [nd]
  | x :: xs => if x.tx.nonce > nd.tx.nonce then nd :: x :: xs else x :: insertNode nd xs

theorem insertAt_find_eq (nd : TxNode) (items : List TxNode) :
    (match findTxWithLargerNonce items nd.tx.nonce with
      | none => items ++ [nd]
      | some i => items.insertIdx i nd) = insertNode nd items := by
  induction items with
  | nil => simp [findTxWithLargerNonce, insertNode]
  | cons x xs ih =>
    by_cases h : x.tx.nonce > nd.tx.nonce
    · simp [findTxWithLargerNonce, insertNode, h]
    · cases hf : findTxWithLargerNonce xs nd.tx.nonce with
      | none =>
        rw [hf] at ih
        simp only [findTxWithLargerNonce, if_neg h, hf, Option.map_none']
        simp [insertNode, if_neg h, ← ih]
      | some j =>
        rw [hf] at ih
        simp only [findTxWithLargerNonce, if_neg h, hf, Option.map_some']
        simp [insertNode, if_neg h, ← ih, List.insertIdx_succ_cons]

theorem AddTx_items (l : TxListForSender) (h : Nat) (tx : Tx) :
    (AddTx l h tx).items = insertNode { txHash := h, tx := tx } l.items := by
  have := insertAt_find_eq { txHash := h, tx := tx } l.items
  simp only [AddTx, onAddedTransaction]
  cases hf : findTxWithLargerNonce l.items tx.nonce with
  | none => rw [hf] at this; simpa using this
  | some i => rw [hf] at this; simpa using this

theorem mem_insertNode {y nd : TxNode} {xs : List TxNode} :
    y ∈ insertNode nd xs ↔ y = nd ∨ y ∈ xs := by
  induction xs with
  | nil => simp [insertNode]
  | cons x xs ih =>
    by_cases h : x.tx.nonce > nd.tx.nonce
    · simp [insertNode, h]
    · simp [insertNode, h, ih]
      tauto

theorem insertNode_perm (nd : TxNode) (xs : List TxNode) :
    (insertNode nd xs).Perm (nd :: xs) := by
  induction xs with
  | nil => simp [insertNode]
  | cons x xs ih =>
    by_cases h : x.tx.nonce > nd.tx.nonce
    · simp [insertNode, h]
    · simp only [insertNode, if_neg h]
      exact (ih.cons x).trans (List.Perm.swap nd x xs)

theorem sorted_insertNode {nd : TxNode} {xs : List TxNode}
    (hs : sortedByNonce xs) : sortedByNonce (insertNode nd xs) := by
  induction xs with
  | nil => simp [insertNode, sortedByNonce]
  | cons x xs ih =>
    rw [sortedByNonce, List.pairwise_cons] at hs
    by_cases h : x.tx.nonce > nd.tx.nonce
    · rw [insertNode, if_pos h, sortedByNonce, List.pairwise_cons]
      refine ⟨?_, ?_⟩
      · intro y hy
        rcases List.mem_cons.mp hy with rfl | hy
        · exact Nat.le_of_lt h
        · exact Nat.le_trans (Nat.le_of_lt h) (hs.1 y hy)
      · exact List.pairwise_cons.mpr hs
    · rw [insertNode, if_neg h, sortedByNonce, List.pairwise_cons]
      refine ⟨?_, ih hs.2⟩
      intro y hy
      rcases mem_insertNode.mp hy with rfl | hy
      · exact Nat.le_of_not_lt h
      · exact hs.1 y hy

theorem sorted_AddTx {l : TxListForSender} (h : Nat) (tx : Tx)
    (hs : sortedByNonce l.items) : sortedByNonce (AddTx l h tx).items := by
  rw [AddTx_items]
  exact sorted_insertNode hs

theorem sorted_of_sublist {xs ys : List TxNode} (hsub : xs.Sublist ys)
    (hs : sortedByNonce ys) : sortedByNonce xs :=
  List.Pairwise.sublist hsub hs

theorem sorted_RemoveTx {l : TxListForSender} (tx : Tx)
    (hs : sortedByNonce l.items) : sortedByNonce (RemoveTx l tx).2.items := by
  rw [RemoveTx]
  cases hf : findListElementWithTx l.items tx with
  | none => exact hs
  | some p => exact sorted_of_sublist (List.eraseIdx_sublist l.items p.1) hs

theorem removeHighNonceTxsAux_items_sublist (c : Nat) (l : TxListForSender) :
    ((removeHighNonceTxsAux l c).2.items).Sublist l.items := by
  induction c generalizing l with
  | zero => simp [removeHighNonceTxsAux]
  | succ c ih =>
    rw [removeHighNonceTxsAux]
    cases hL : l.items.getLast? with
    | none => simp
    | some nd =>
      simp only
      exact ((ih _).trans (by simp [onRemovedListElement])).trans
        (List.dropLast_sublist l.items)

theorem sorted_RemoveHighNonceTxs {l : TxListForSender} (c : Nat)
    (hs : sortedByNonce l.items) : sortedByNonce (RemoveHighNonceTxs l c).2.items :=
  sorted_of_sublist (removeHighNonceTxsAux_items_sublist c l) hs

theorem sorted_applyOp {l : TxListForSender} (op : TxOp)
    (hs : sortedByNonce l.items) : sortedByNonce (applyOp l op).items := by
  cases op with
  | add h tx => exact sorted_AddTx h tx hs
  | remove tx => exact sorted_RemoveTx tx hs
  | removeHigh c => exact sorted_RemoveHighNonceTxs c hs

theorem sorted_applyOps {l : TxListForSender} (ops : List TxOp)
    (hs : sortedByNonce l.items) : sortedByNonce (applyOps l ops).items := by
  induction ops generalizing l with
  | nil => exact hs
  | cons op ops ih => exact ih (sorted_applyOp op hs)

/-- C2: for every sequence of `AddTx`, `RemoveTx` and `RemoveHighNonceTxs`
operations starting from the empty list, the stored sequence is non-decreasing
by nonce after every operation (every prefix of operations is itself such a
sequence, so the statement covers every intermediate state). -/
theorem c2_sorted_invariant (ops : List TxOp) :
    sortedByNonce (applyOps newTxListForSender ops).items :=
  sorted_applyOps ops (by simp [newTxListForSender, sortedByNonce])

/-- C1: the totals invariant fails on the code. Adding one transaction of
size 1, gas 10, fee 5 and then removing it leaves an empty sequence, yet
`totalGas = -5` and `totalFee = 5`: `onRemovedListElement` subtracts the
removed transaction's fee from `totalGas` instead of from `totalFee`, so after
a removal `totalGas ≠ Σ gas(tx)` and `totalFee ≠ Σ fee(tx)` (while
`totalBytes` does match `Σ size(tx)`). -/
theorem c1_totals_code_bug :
    (applyOps newTxListForSender
        [TxOp.add 100 { txid := 0, sndAddr := 0, nonce := 1, size := 1, gas := 10, fee := 5 },
         TxOp.remove { txid := 0, sndAddr := 0, nonce := 1, size := 1, gas := 10, fee := 5 }]).items = [] ∧
    (applyOps newTxListForSender
        [TxOp.add 100 { txid := 0, sndAddr := 0, nonce := 1, size := 1, gas := 10, fee := 5 },
         TxOp.remove { txid := 0, sndAddr := 0, nonce := 1, size := 1, gas := 10, fee := 5 }]).totalGas = -5 ∧
    (applyOps newTxListForSender
        [TxOp.add 100 { txid := 0, sndAddr := 0, nonce := 1, size := 1, gas := 10, fee := 5 },
         TxOp.remove { txid := 0, sndAddr := 0, nonce := 1, size := 1, gas := 10, fee := 5 }]).totalFee = 5 ∧
    sumGas [] = 0 ∧ sumFee [] = 0 := by decide

/-! Lemmas about `findListElementWithTx` and `RemoveTx`. -/

theorem findListElementWithTx_some {items : List TxNode} {tx : Tx}
    {p : Nat × TxNode} (hf : findListElementWithTx items tx = some p) :
    p.2 ∈ items ∧ p.2.tx = tx := by
  induction items generalizing p with
  | nil => simp [findListElementWithTx] at hf
  | cons nd rest ih =>
    rw [findListElementWithTx] at hf
    by_cases h1 : nd.tx = tx
    · rw [if_pos h1] at hf
      cases hf
      exact ⟨List.mem_cons_self nd rest, h1⟩
    · rw [if_neg h1] at hf
      by_cases h2 : nd.tx.nonce > tx.nonce
      · rw [if_pos h2] at hf; cases hf
      · rw [if_neg h2] at hf
        cases hq : findListElementWithTx rest tx with
        | none => rw [hq] at hf; cases hf
        | some q =>
          rw [hq] at hf
          cases hf
          exact ⟨List.mem_cons_of_mem nd (ih hq).1, (ih hq).2⟩

theorem findListElementWithTx_mem {items : List TxNode} {tx : Tx}
    (hs : sortedByNonce items) (hmem : tx ∈ items.map (fun nd => nd.tx)) :
    (findListElementWithTx items tx).isSome := by
  induction items with
  | nil => simp at hmem
  | cons nd rest ih =>
    rw [sortedByNonce, List.pairwise_cons] at hs
    rw [findListElementWithTx]
    by_cases h1 : nd.tx = tx
    · simp [h1]
    · rw [if_neg h1]
      have hrest : tx ∈ rest.map (fun nd => nd.tx) := by
        rcases List.mem_map.mp hmem with ⟨y, hy, hyt⟩
        rcases List.mem_cons.mp hy with rfl | hy
        · exact absurd hyt h1
        · exact List.mem_map.mpr ⟨y, hy, hyt⟩
      by_cases h2 : nd.tx.nonce > tx.nonce
      · exfalso
        rcases List.mem_map.mp hrest with ⟨y, hy, hyt⟩
        have hle := hs.1 y hy
        rw [hyt] at hle
        omega
      · rw [if_neg h2]
        have := ih hs.2 hrest
        cases hq : findListElementWithTx rest tx with
        | none => rw [hq] at this; simp at this
        | some q => simp [hq]

/-- C5: on a sorted list, `RemoveTx` returns `true` exactly when an entry
holding the target transaction (identity match) is present — the nonce-bounded
scan never misses a present entry — and when no such entry is present it
returns `false` with the sequence and the running totals unchanged. -/
theorem c5_removeTx_correct (l : TxListForSender) (tx : Tx)
    (hs : sortedByNonce l.items) :
    ((RemoveTx l tx).1 = true ↔ tx ∈ l.items.map (fun nd => nd.tx)) ∧
    (tx ∉ l.items.map (fun nd => nd.tx) → RemoveTx l tx = (false, l)) := by
  cases hf : findListElementWithTx l.items tx with
  | none =>
    have hnotmem : tx ∉ l.items.map (fun nd => nd.tx) := by
      intro hmem
      have := findListElementWithTx_mem hs hmem
      rw [hf] at this
      simp at this
    constructor
    · constructor
      · intro hit
        exfalso
        rw [RemoveTx, hf] at hit
        simp at hit
      · intro hmem
        exact absurd hmem hnotmem
    · intro _
      rw [RemoveTx, hf]
  | some p =>
    constructor
    · constructor
      · intro _
        rcases findListElementWithTx_some hf with ⟨hmem, htx⟩
        exact List.mem_map.mpr ⟨p.2, hmem, htx⟩
      · intro _
        rw [RemoveTx, hf]
    · intro hmem
      exfalso
      rcases findListElementWithTx_some hf with ⟨hm, htx⟩
      exact hmem (List.mem_map.mpr ⟨p.2, hm, htx⟩)

/-- Witness for C5 at a concrete sorted list and an absent transaction. -/
theorem c5_removeTx_correct_witness :
    ((RemoveTx (AddTx newTxListForSender 10 { txid := 1, sndAddr := 0, nonce := 3, size := 1, gas := 1, fee := 1 })
        { txid := 2, sndAddr := 0, nonce := 4, size := 1, gas := 1, fee := 1 }).1 = true ↔
      { txid := 2, sndAddr := 0, nonce := 4, size := 1, gas := 1, fee := 1 } ∈
        (AddTx newTxListForSender 10 { txid := 1, sndAddr := 0, nonce := 3, size := 1, gas := 1, fee := 1 }).items.map
          (fun nd => nd.tx)) ∧
    ({ txid := 2, sndAddr := 0, nonce := 4, size := 1, gas := 1, fee := 1 } ∉
        (AddTx newTxListForSender 10 { txid := 1, sndAddr := 0, nonce := 3, size := 1, gas := 1, fee := 1 }).items.map
          (fun nd => nd.tx) →
      RemoveTx (AddTx newTxListForSender 10 { txid := 1, sndAddr := 0, nonce := 3, size := 1, gas := 1, fee := 1 })
          { txid := 2, sndAddr := 0, nonce := 4, size := 1, gas := 1, fee := 1 } =
        (false, AddTx newTxListForSender 10 { txid := 1, sndAddr := 0, nonce := 3, size := 1, gas := 1, fee := 1 })) :=
  c5_removeTx_correct _ _ (by decide)

/-! Closed forms for `RemoveHighNonceTxs`. -/

theorem removeHighNonceTxsAux_items (c : Nat) (l : TxListForSender) :
    (removeHighNonceTxsAux l c).2.items
      = l.items.take (l.items.length - min c l.items.length) := by
  induction c generalizing l with
  | zero => simp [removeHighNonceTxsAux]
  | succ c ih =>
    rw [removeHighNonceTxsAux]
    cases hL : l.items.getLast? with
    | none =>
      have hnil : l.items = [] := List.getLast?_eq_none_iff.mp hL
      simp [hnil]
    | some nd =>
      obtain ⟨ys, hys⟩ := List.getLast?_eq_some_iff.mp hL
      simp only
      rw [ih]
      have hX : (onRemovedListElement { l with items := l.items.dropLast } nd).items = ys := by
        simp [onRemovedListElement, hys]
      rw [hX, hys, List.length_append]
      simp only [List.length_singleton]
      have harith : ys.length + 1 - min (c + 1) (ys.length + 1)
          = ys.length - min c ys.length := by omega
      have hle : ys.length - min c ys.length ≤ ys.length := by omega
      rw [harith, List.take_append_of_le_length hle]

theorem removeHighNonceTxsAux_hashes (c : Nat) (l : TxListForSender) :
    (removeHighNonceTxsAux l c).1
      = ((l.items.drop (l.items.length - min c l.items.length)).reverse.map
          (fun nd => some nd.txHash))
        ++ List.replicate (c - min c l.items.length) (none : Option Nat) := by
  induction c generalizing l with
  | zero => simp [removeHighNonceTxsAux]
  | succ c ih =>
    rw [removeHighNonceTxsAux]
    cases hL : l.items.getLast? with
    | none =>
      have hnil : l.items = [] := List.getLast?_eq_none_iff.mp hL
      simp [hnil]
    | some nd =>
      obtain ⟨ys, hys⟩ := List.getLast?_eq_some_iff.mp hL
      simp only
      rw [ih]
      have hX : (onRemovedListElement { l with items := l.items.dropLast } nd).items = ys := by
        simp [onRemovedListElement, hys]
      rw [hX, hys, List.length_append]
      simp only [List.length_singleton]
      have harith : ys.length + 1 - min (c + 1) (ys.length + 1)
          = ys.length - min c ys.length := by omega
      have harith2 : c + 1 - min (c + 1) (ys.length + 1)
          = c - min c ys.length := by omega
      have hle : ys.length - min c ys.length ≤ ys.length := by omega
      rw [harith, harith2, List.drop_append_of_le_length hle, List.reverse_append]
      simp

/-- C3: on a sorted list of `n` transactions, `RemoveHighNonceTxs k` keeps
exactly the first `n - min k n` entries (so it removes exactly `min k n`
entries, the final — highest-nonce — segment of the sequence), the remaining
sequence is still sorted, and every remaining nonce is at most every removed
nonce. -/
theorem c3_removeHighNonceTxs_correct (l : TxListForSender) (k : Nat)
    (hs : sortedByNonce l.items) :
    (RemoveHighNonceTxs l k).2.items
      = l.items.take (l.items.length - min k l.items.length) ∧
    (RemoveHighNonceTxs l k).2.items.length
      = l.items.length - min k l.items.length ∧
    sortedByNonce (RemoveHighNonceTxs l k).2.items ∧
    (∀ a ∈ (RemoveHighNonceTxs l k).2.items,
      ∀ b ∈ l.items.drop (l.items.length - min k l.items.length),
        a.tx.nonce ≤ b.tx.nonce) := by
  have hitems := removeHighNonceTxsAux_items k l
  refine ⟨hitems, ?_, sorted_RemoveHighNonceTxs k hs, ?_⟩
  · rw [RemoveHighNonceTxs, hitems]
    simp [List.length_take]
  · intro a ha b hb
    rw [RemoveHighNonceTxs, hitems] at ha
    have hsplit : sortedByNonce
        (l.items.take (l.items.length - min k l.items.length)
          ++ l.items.drop (l.items.length - min k l.items.length)) := by
      rw [List.take_append_drop]
      exact hs
    rw [sortedByNonce, List.pairwise_append] at hsplit
    exact hsplit.2.2 a ha b hb

/-- Witness for C3 on a concrete sorted two-element list with `k = 1`. -/
theorem c3_removeHighNonceTxs_correct_witness :
    (RemoveHighNonceTxs sampleList2 1).2.items
      = sampleList2.items.take (sampleList2.items.length - min 1 sampleList2.items.length) ∧
    (RemoveHighNonceTxs sampleList2 1).2.items.length
      = sampleList2.items.length - min 1 sampleList2.items.length ∧
    sortedByNonce (RemoveHighNonceTxs sampleList2 1).2.items ∧
    (∀ a ∈ (RemoveHighNonceTxs sampleList2 1).2.items,
      ∀ b ∈ sampleList2.items.drop (sampleList2.items.length - min 1 sampleList2.items.length),
        a.tx.nonce ≤ b.tx.nonce) :=
  c3_removeHighNonceTxs_correct sampleList2 1 (by decide)

/-- C4 counterexample: on an empty list (`n = 0 < k = 1`),
`RemoveHighNonceTxs 1` removes nothing but returns a slice of length 1 whose
single entry is the nil hash — not a result containing exactly the `n = 0`
removed hashes: the returned slice is allocated with length `count` and the
slots never filled keep nil. -/
theorem c4_counterexample :
    (RemoveHighNonceTxs newTxListForSender 1).1 = [none] ∧
    (RemoveHighNonceTxs newTxListForSender 1).1.length = 1 := by decide

/-- C4 amended: `RemoveHighNonceTxs k` returns a slice of length exactly `k`:
its first `min k n` entries are the removed hashes in removal order (highest
nonce first, since the removed segment of a sorted list is read back to
front), and the remaining `k - min k n` entries are nil. -/
theorem c4_removeHighNonceTxs_hashes (l : TxListForSender) (k : Nat)
    (hs : sortedByNonce l.items) :
    (RemoveHighNonceTxs l k).1
      = ((l.items.drop (l.items.length - min k l.items.length)).reverse.map
          (fun nd => some nd.txHash))
        ++ List.replicate (k - min k l.items.length) none ∧
    (RemoveHighNonceTxs l k).1.length = k ∧
    List.Pairwise (fun a b => b.tx.nonce ≤ a.tx.nonce)
      ((l.items.drop (l.items.length - min k l.items.length)).reverse) := by
  have hh := removeHighNonceTxsAux_hashes k l
  refine ⟨hh, ?_, ?_⟩
  · rw [RemoveHighNonceTxs, hh]
    simp [List.length_drop]
    omega
  · rw [List.pairwise_reverse]
    exact List.Pairwise.sublist (List.drop_sublist _ _) hs

/-- Witness for C4 amended on a concrete sorted two-element list with
`k = 3 > n = 2`. -/
theorem c4_removeHighNonceTxs_hashes_witness :
    (RemoveHighNonceTxs sampleList2 3).1
      = ((sampleList2.items.drop (sampleList2.items.length - min 3 sampleList2.items.length)).reverse.map
          (fun nd => some nd.txHash))
        ++ List.replicate (3 - min 3 sampleList2.items.length) none ∧
    (RemoveHighNonceTxs sampleList2 3).1.length = 3 ∧
    List.Pairwise (fun a b => b.tx.nonce ≤ a.tx.nonce)
      ((sampleList2.items.drop (sampleList2.items.length - min 3 sampleList2.items.length)).reverse) :=
  c4_removeHighNonceTxs_hashes sampleList2 3 (by decide)

/-- C6 counterexample: adding two distinct transactions with the same nonce 5
leaves BOTH in the list — the list then holds two entries with nonce 5, not
exactly one, so neither "keep existing, reject new" nor "replace existing"
happens. -/
theorem c6_counterexample :
    ((AddTx (AddTx newTxListForSender 10 { txid := 1, sndAddr := 0, nonce := 5, size := 1, gas := 1, fee := 1 })
        11 { txid := 2, sndAddr := 0, nonce := 5, size := 1, gas := 1, fee := 1 }).items.filter
      (fun nd => nd.tx.nonce == 5)).length = 2 ∧
    (AddTx (AddTx newTxListForSender 10 { txid := 1, sndAddr := 0, nonce := 5, size := 1, gas := 1, fee := 1 })
        11 { txid := 2, sndAddr := 0, nonce := 5, size := 1, gas := 1, fee := 1 }).items.map
      (fun nd => nd.txHash) = [10, 11] := by decide

/-- C6 amended: when an entry with the new transaction's nonce already exists,
`AddTx` keeps the existing entry AND inserts the new one (no rejection, no
replacement): the resulting sequence is a permutation of the old sequence plus
the new node, and at least two entries with that nonce are present. -/
theorem c6_addTx_equal_nonce (l : TxListForSender) (h : Nat) (tx : Tx)
    (hex : ∃ nd ∈ l.items, nd.tx.nonce = tx.nonce) :
    ((AddTx l h tx).items).Perm ({ txHash := h, tx := tx } :: l.items) ∧
    2 ≤ ((AddTx l h tx).items.filter (fun nd => nd.tx.nonce == tx.nonce)).length := by
  have hperm : ((AddTx l h tx).items).Perm ({ txHash := h, tx := tx } :: l.items) := by
    rw [AddTx_items]
    exact insertNode_perm _ _
  refine ⟨hperm, ?_⟩
  have hfil := hperm.filter (fun nd => nd.tx.nonce == tx.nonce)
  rw [hfil.length_eq]
  rcases hex with ⟨nd, hnd, hnonce⟩
  have hmemf : nd ∈ l.items.filter (fun nd => nd.tx.nonce == tx.nonce) :=
    List.mem_filter.mpr ⟨hnd, by simp [hnonce]⟩
  have hpos : 0 < (l.items.filter (fun nd => nd.tx.nonce == tx.nonce)).length :=
    List.length_pos.mpr (List.ne_nil_of_mem hmemf)
  rw [List.filter_cons]
  simp only [beq_self_eq_true, if_pos]
  simp only [List.length_cons]
  omega

/-- Witness for C6 amended at a concrete list with an equal-nonce entry. -/
theorem c6_addTx_equal_nonce_witness :
    ((AddTx (AddTx newTxListForSender 10 { txid := 1, sndAddr := 0, nonce := 5, size := 1, gas := 1, fee := 1 })
        11 { txid := 2, sndAddr := 0, nonce := 5, size := 1, gas := 1, fee := 1 }).items).Perm
      ({ txHash := 11, tx := { txid := 2, sndAddr := 0, nonce := 5, size := 1, gas := 1, fee := 1 } } ::
        (AddTx newTxListForSender 10 { txid := 1, sndAddr := 0, nonce := 5, size := 1, gas := 1, fee := 1 }).items) ∧
    2 ≤ ((AddTx (AddTx newTxListForSender 10 { txid := 1, sndAddr := 0, nonce := 5, size := 1, gas := 1, fee := 1 })
        11 { txid := 2, sndAddr := 0, nonce := 5, size := 1, gas := 1, fee := 1 }).items.filter
      (fun nd => nd.tx.nonce == 5)).length :=
  c6_addTx_equal_nonce _ _ _ (by decide)

/-! Lemmas about the resumable batch cursor. -/

theorem copyBatchTo_step (l : TxListForSender) (e d b : Nat) (h : goodCursor l e) :
    (copyBatchTo l false d b).1
      = (l.items.drop e).take (min (e + min b d) l.items.length - e) ∧
    (copyBatchTo l false d b).2.items = l.items ∧
    goodCursor (copyBatchTo l false d b).2 (min (e + min b d) l.items.length) := by
  rw [goodCursor] at h
  by_cases hlt : e < l.items.length
  · rw [if_pos hlt] at h
    have he' : e + min (min b d) (l.items.length - e) = min (e + min b d) l.items.length := by
      omega
    refine ⟨?_, ?_, ?_⟩
    · simp only [copyBatchTo, Bool.false_eq_true, if_false, h]
      have : min (min b d) (l.items.length - e)
          = min (e + min b d) l.items.length - e := by omega
      rw [this]
    · simp only [copyBatchTo, Bool.false_eq_true, if_false, h]
    · simp only [copyBatchTo, Bool.false_eq_true, if_false, h, goodCursor]
      rw [he']
  · rw [if_neg hlt] at h
    have hnil : l.items.drop e = [] := List.drop_eq_nil_of_le (by omega)
    have he' : min (e + min b d) l.items.length = l.items.length := by omega
    refine ⟨?_, ?_, ?_⟩
    · simp only [copyBatchTo, Bool.false_eq_true, if_false, h]
      rw [hnil, List.take_nil]
    · simp only [copyBatchTo, Bool.false_eq_true, if_false, h]
    · simp only [copyBatchTo, Bool.false_eq_true, if_false, h, goodCursor]
      rw [he']
      simp

theorem copyBatchTo_reset (l : TxListForSender) (d b : Nat) :
    (copyBatchTo l true d b).1 = l.items.take (min (min b d) l.items.length) ∧
    (copyBatchTo l true d b).2.items = l.items ∧
    goodCursor (copyBatchTo l true d b).2 (min (min b d) l.items.length) := by
  by_cases hnil : l.items.isEmpty
  · have hlen : l.items = [] := List.isEmpty_iff.mp hnil
    refine ⟨?_, ?_, ?_⟩
    · simp [copyBatchTo, hnil, hlen]
    · simp [copyBatchTo, hnil]
    · simp [copyBatchTo, hnil, goodCursor, hlen]
  · have hpos : 0 < l.items.length := by
      cases hi : l.items with
      | nil => rw [hi] at hnil; simp at hnil
      | cons x xs => simp [hi]
    have he' : 0 + min (min b d) (l.items.length - 0) = min (min b d) l.items.length := by
      omega
    refine ⟨?_, ?_, ?_⟩
    · simp only [copyBatchTo, if_true, hnil, Bool.false_eq_true, if_false]
      have : min (min b d) (l.items.length - 0) = min (min b d) l.items.length := by omega
      rw [this, List.drop_zero]
    · simp only [copyBatchTo, if_true, hnil, Bool.false_eq_true, if_false]
    · simp only [copyBatchTo, if_true, hnil, Bool.false_eq_true, if_false, goodCursor]
      rw [he']

theorem copyRun_of_goodCursor (caps : List (Nat × Nat)) (l : TxListForSender) (e : Nat)
    (h : goodCursor l e) (he : e ≤ l.items.length) :
    (copyRun l caps).1
      = (l.items.drop e).take (min (e + capsSum caps) l.items.length - e) ∧
    (copyRun l caps).2.items = l.items := by
  induction caps generalizing l e with
  | nil =>
    refine ⟨?_, rfl⟩
    have : min (e + capsSum []) l.items.length - e = 0 := by
      simp only [capsSum, List.map_nil, List.sum_nil]
      omega
    rw [this, List.take_zero, copyRun]
  | cons c cs ih =>
    obtain ⟨hout, hitems, hcur⟩ := copyBatchTo_step l e c.1 c.2 h
    have he1 : min (e + min c.2 c.1) l.items.length ≤ l.items.length := by omega
    have hcur' : goodCursor (copyBatchTo l false c.1 c.2).2
        (min (e + min c.2 c.1) l.items.length) := hcur
    have ihr := ih (copyBatchTo l false c.1 c.2).2 (min (e + min c.2 c.1) l.items.length)
      hcur' (by rw [hitems]; exact he1)
    rw [hitems] at ihr
    refine ⟨?_, ?_⟩
    · rw [copyRun]
      simp only
      rw [hout, ihr.1]
      have hcs : capsSum (c :: cs) = min c.2 c.1 + capsSum cs := by
        simp [capsSum]
      have hE : min (min (e + min c.2 c.1) l.items.length + capsSum cs) l.items.length
          = min (e + capsSum (c :: cs)) l.items.length := by
        rw [hcs]; omega
      rw [hE]
      have hsum : (min (e + min c.2 c.1) l.items.length - e)
          + (min (e + capsSum (c :: cs)) l.items.length
              - min (e + min c.2 c.1) l.items.length)
          = min (e + capsSum (c :: cs)) l.items.length - e := by
        rw [hcs]; omega
      rw [← hsum, List.take_add, List.drop_drop]
      have heq : e + (min (e + min c.2 c.1) l.items.length - e)
          = min (e + min c.2 c.1) l.items.length := by omega
      rw [heq]
    · rw [copyRun]
      simp only
      rw [ihr.2]

/-- C7: starting with one `copyBatchTo` call with `reset = true` and following
with `reset = false` calls whose summed capacities `min(batchSize, destLen)`
cover the whole list, the concatenation of all copied batches is exactly the
stored sequence — every entry once, in order, no duplicate, no gap (the Go
code never mutates `items` during these calls). -/
theorem c7_copyBatch_resumable (l : TxListForSender) (d0 b0 : Nat)
    (caps : List (Nat × Nat))
    (henough : l.items.length ≤ min b0 d0 + capsSum caps) :
    (copyBatchTo l true d0 b0).1
      ++ (copyRun (copyBatchTo l true d0 b0).2 caps).1 = l.items := by
  obtain ⟨hout0, hitems0, hcur0⟩ := copyBatchTo_reset l d0 b0
  set e0 := min (min b0 d0) l.items.length with he0
  have hrun := copyRun_of_goodCursor caps (copyBatchTo l true d0 b0).2 e0
    (by rw [he0, ← hitems0] at hcur0 ⊢; exact hcur0)
    (by rw [hitems0]; omega)
  rw [hitems0] at hrun
  rw [hout0, hrun.1]
  have hE : min (e0 + capsSum caps) l.items.length = l.items.length := by omega
  rw [hE]
  have : l.items.length - e0 = (l.items.drop e0).length := by
    rw [List.length_drop]
  rw [this, List.take_length, List.take_append_drop]

/-- Witness for C7: a reset call of capacity 1 followed by two more calls of
capacity 1 streams out the whole two-element list. -/
theorem c7_copyBatch_resumable_witness :
    (copyBatchTo sampleList2 true 1 1).1
      ++ (copyRun (copyBatchTo sampleList2 true 1 1).2 [(1, 1), (1, 1)]).1
      = sampleList2.items :=
  c7_copyBatch_resumable sampleList2 1 1 [(1, 1), (1, 1)] (by decide)

/-! The batch cursor is untouched by the mutation operations. -/

theorem removeHighNonceTxsAux_cursor (c : Nat) (l : TxListForSender) :
    (removeHighNonceTxsAux l c).2.copyBatchIndex = l.copyBatchIndex := by
  induction c generalizing l with
  | zero => rw [removeHighNonceTxsAux]
  | succ c ih =>
    rw [removeHighNonceTxsAux]
    cases hL : l.items.getLast? with
    | none => rfl
    | some nd =>
      simp only
      rw [ih]
      rfl

theorem applyOp_cursor (l : TxListForSender) (op : TxOp) :
    (applyOp l op).copyBatchIndex = l.copyBatchIndex := by
  cases op with
  | add h tx =>
    rw [applyOp, AddTx]
    cases findTxWithLargerNonce l.items tx.nonce <;> rfl
  | remove tx =>
    rw [applyOp, RemoveTx]
    cases findListElementWithTx l.items tx <;> rfl
  | removeHigh c =>
    rw [applyOp]
    exact removeHighNonceTxsAux_cursor c l

theorem applyOps_cursor (ops : List TxOp) (l : TxListForSender) :
    (applyOps l ops).copyBatchIndex = l.copyBatchIndex := by
  induction ops generalizing l with
  | nil => rfl
  | cons op ops ih =>
    rw [applyOps, List.foldl_cons]
    rw [show (List.foldl applyOp (applyOp l op) ops) = applyOps (applyOp l op) ops from rfl]
    rw [ih, applyOp_cursor]

/-- C10: on a list built by any sequence of operations from the fresh state —
so `copyBatchTo` was never called with `reset = true` and the cursor is still
its initial nil — a `copyBatchTo` call with `reset = false` copies nothing and
returns 0, however many transactions the list holds. -/
theorem c10_copyBatch_without_reset (ops : List TxOp) (d b : Nat) :
    (copyBatchTo (applyOps newTxListForSender ops) false d b).1 = [] ∧
    (copyBatchTo (applyOps newTxListForSender ops) false d b).1.length = 0 := by
  have hcur : (applyOps newTxListForSender ops).copyBatchIndex = none := by
    rw [applyOps_cursor]
    rfl
  constructor
  · simp only [copyBatchTo, Bool.false_eq_true, if_false, hcur]
  · simp only [copyBatchTo, Bool.false_eq_true, if_false, hcur, List.length_nil]

/-! The live-sender counter tracks the backing index (C8). -/

theorem updateListForSender_keys (bm : List (Nat × TxListForSender)) (s : Nat)
    (f : TxListForSender → TxListForSender) :
    (updateListForSender bm s f).map (fun p => p.1) = bm.map (fun p => p.1) := by
  induction bm with
  | nil => rfl
  | cons p ps ih =>
    simp only [updateListForSender, List.map_cons] at ih ⊢
    by_cases hp : p.1 == s
    · simp only [if_pos hp, ih]
    · simp only [if_neg hp, ih]

theorem updateListForSender_length (bm : List (Nat × TxListForSender)) (s : Nat)
    (f : TxListForSender → TxListForSender) :
    (updateListForSender bm s f).length = bm.length := by
  simp [updateListForSender]

theorem getOrAddListForSender_inv (m : TxListBySenderMap) (s : Nat)
    (h1 : m.counter = (m.backingMap.length : Int))
    (h2 : (m.backingMap.map (fun p => p.1)).Nodup) :
    (getOrAddListForSender m s).counter
      = ((getOrAddListForSender m s).backingMap.length : Int) ∧
    ((getOrAddListForSender m s).backingMap.map (fun p => p.1)).Nodup := by
  rw [getOrAddListForSender]
  cases hf : getListForSender m s with
  | some l => exact ⟨h1, h2⟩
  | none =>
    have hnot : ∀ p ∈ m.backingMap, ¬p.1 = s := by
      rw [getListForSender] at hf
      cases hq : m.backingMap.find? (fun p => p.1 == s) with
      | none =>
        intro p hp
        have := List.find?_eq_none.mp hq p hp
        simpa using this
      | some q => rw [hq] at hf; simp at hf
    constructor
    · rw [addSender]
      simp only [List.length_append, List.length_singleton]
      push_cast
      omega
    · rw [addSender]
      simp only [List.map_append, List.map_cons, List.map_nil]
      refine List.Nodup.append h2 (by simp) ?_
      intro a ha hb
      simp only [List.mem_singleton] at hb
      subst hb
      rcases List.mem_map.mp ha with ⟨p, hp, hps⟩
      exact hnot p hp hps

theorem removeSender_inv (m : TxListBySenderMap) (s : Nat)
    (h1 : m.counter = (m.backingMap.length : Int))
    (h2 : (m.backingMap.map (fun p => p.1)).Nodup) :
    (removeSender m s).2.counter = ((removeSender m s).2.backingMap.length : Int) ∧
    ((removeSender m s).2.backingMap.map (fun p => p.1)).Nodup := by
  rw [removeSender]
  by_cases hf : (m.backingMap.find? (fun p => p.1 == s)).isSome
  · rw [if_pos hf]
    obtain ⟨x, hx⟩ := Option.isSome_iff_exists.mp hf
    have hmem := List.mem_of_find?_eq_some hx
    have hpx := List.find?_some hx
    have hlen : (m.backingMap.eraseP (fun p => p.1 == s)).length
        = m.backingMap.length - 1 := List.length_eraseP_of_mem hmem hpx
    have hpos : 0 < m.backingMap.length :=
      List.length_pos.mpr (List.ne_nil_of_mem hmem)
    constructor
    · simp only
      rw [hlen]
      omega
    · simp only
      exact List.Nodup.sublist
        ((List.eraseP_sublist m.backingMap).map (fun p => p.1)) h2
  · rw [if_neg hf]
    exact ⟨h1, h2⟩

theorem mapAddTx_inv (m : TxListBySenderMap) (h : Nat) (tx : Tx)
    (h1 : m.counter = (m.backingMap.length : Int))
    (h2 : (m.backingMap.map (fun p => p.1)).Nodup) :
    (mapAddTx m h tx).counter = ((mapAddTx m h tx).backingMap.length : Int) ∧
    ((mapAddTx m h tx).backingMap.map (fun p => p.1)).Nodup := by
  obtain ⟨hg1, hg2⟩ := getOrAddListForSender_inv m tx.sndAddr h1 h2
  constructor
  · rw [mapAddTx]
    simp only
    rw [updateListForSender_length]
    exact hg1
  · rw [mapAddTx]
    simp only
    rw [updateListForSender_keys]
    exact hg2

theorem mapRemoveTx_inv (m : TxListBySenderMap) (tx : Tx)
    (h1 : m.counter = (m.backingMap.length : Int))
    (h2 : (m.backingMap.map (fun p => p.1)).Nodup) :
    (mapRemoveTx m tx).2.counter = ((mapRemoveTx m tx).2.backingMap.length : Int) ∧
    ((mapRemoveTx m tx).2.backingMap.map (fun p => p.1)).Nodup := by
  rw [mapRemoveTx]
  cases hf : getListForSender m tx.sndAddr with
  | none => exact ⟨h1, h2⟩
  | some l =>
    simp only
    have h1' : m.counter
        = ((updateListForSender m.backingMap tx.sndAddr
            (fun _ => (RemoveTx l tx).2)).length : Int) := by
      rw [updateListForSender_length]
      exact h1
    have h2' : ((updateListForSender m.backingMap tx.sndAddr
        (fun _ => (RemoveTx l tx).2)).map (fun p => p.1)).Nodup := by
      rw [updateListForSender_keys]
      exact h2
    by_cases he : (RemoveTx l tx).2.items.isEmpty
    · rw [if_pos he]
      exact removeSender_inv _ tx.sndAddr h1' h2'
    · rw [if_neg he]
      exact ⟨h1', h2'⟩

theorem removeSendersBulk_foldl_inv (ss : List Nat) (acc : Nat × TxListBySenderMap)
    (h1 : acc.2.counter = (acc.2.backingMap.length : Int))
    (h2 : (acc.2.backingMap.map (fun p => p.1)).Nodup) :
    (ss.foldl
      (fun acc s =>
        let r := removeSender acc.2 s
        (if r.1 then acc.1 + 1 else acc.1, r.2)) acc).2.counter
      = ((ss.foldl
          (fun acc s =>
            let r := removeSender acc.2 s
            (if r.1 then acc.1 + 1 else acc.1, r.2)) acc).2.backingMap.length : Int) ∧
    ((ss.foldl
        (fun acc s =>
          let r := removeSender acc.2 s
          (if r.1 then acc.1 + 1 else acc.1, r.2)) acc).2.backingMap.map
      (fun p => p.1)).Nodup := by
  induction ss generalizing acc with
  | nil => exact ⟨h1, h2⟩
  | cons s ss ih =>
    rw [List.foldl_cons]
    obtain ⟨hr1, hr2⟩ := removeSender_inv acc.2 s h1 h2
    exact ih _ hr1 hr2

theorem applyMapOp_inv (m : TxListBySenderMap) (op : MapOp)
    (h1 : m.counter = (m.backingMap.length : Int))
    (h2 : (m.backingMap.map (fun p => p.1)).Nodup) :
    (applyMapOp m op).counter = ((applyMapOp m op).backingMap.length : Int) ∧
    ((applyMapOp m op).backingMap.map (fun p => p.1)).Nodup := by
  cases op with
  | addTx h tx => exact mapAddTx_inv m h tx h1 h2
  | removeTx tx => exact mapRemoveTx_inv m tx h1 h2
  | removeSendersBulk ss =>
    have := removeSendersBulk_foldl_inv ss (0, m) h1 h2
    exact this
  | clear => exact ⟨rfl, List.nodup_nil⟩

/-- C8: after every sequence of registry operations (`addTx`, `removeTx`,
`RemoveSendersBulk`, `clear`) from a fresh registry, the live-sender counter
equals the number of sender identifiers present in the backing index (the
identifiers are pairwise distinct and the counter equals their count). -/
theorem c8_counter_matches_senders (ops : List MapOp) :
    (applyMapOps newTxListBySenderMap ops).counter
      = ((applyMapOps newTxListBySenderMap ops).backingMap.length : Int) ∧
    ((applyMapOps newTxListBySenderMap ops).backingMap.map (fun p => p.1)).Nodup := by
  suffices hgen : ∀ (m : TxListBySenderMap),
      m.counter = (m.backingMap.length : Int) →
      ((m.backingMap.map (fun p => p.1)).Nodup) →
      (applyMapOps m ops).counter = ((applyMapOps m ops).backingMap.length : Int) ∧
      ((applyMapOps m ops).backingMap.map (fun p => p.1)).Nodup by
    exact hgen newTxListBySenderMap rfl List.nodup_nil
  induction ops with
  | nil => intro m hm1 hm2; exact ⟨hm1, hm2⟩
  | cons op ops ih =>
    intro m hm1 hm2
    rw [applyMapOps, List.foldl_cons]
    obtain ⟨ha1, ha2⟩ := applyMapOp_inv m op hm1 hm2
    exact ih (applyMapOp m op) ha1 ha2

/-! Double-checked locking: single creation (C9). -/

theorem dclRun_cons (s : DclState) (e : Nat × DclEvent) (es : List (Nat × DclEvent)) :
    dclRun s (e :: es) = dclRun (dclStep s e.2) es := rfl

theorem dclRunValid_cons (s : DclState) (e : Nat × DclEvent) (es : List (Nat × DclEvent)) :
    dclRunValid s (e :: es)
      = (dclEventValid s e.2 && dclRunValid (dclStep s e.2) es) := rfl

theorem dclRun_present_mono (run : List (Nat × DclEvent)) (s : DclState)
    (hp : s.present = true) : (dclRun s run).present = true := by
  induction run generalizing s with
  | nil => exact hp
  | cons e es ih =>
    rw [dclRun_cons]
    apply ih
    cases e.2 <;> simp [dclStep, hp]

theorem dclRun_inv (run : List (Nat × DclEvent)) (s : DclState)
    (hv : dclRunValid s run = true)
    (hinv : s.counter = (if s.present then 1 else 0)) :
    (dclRun s run).counter = (if (dclRun s run).present then 1 else 0) := by
  induction run generalizing s with
  | nil => exact hinv
  | cons e es ih =>
    rw [dclRunValid_cons, Bool.and_eq_true] at hv
    rw [dclRun_cons]
    apply ih _ hv.2
    cases he : e.2 with
    | create =>
      rw [he] at hv
      have : s.present = false := by
        have := hv.1
        rw [dclEventValid] at this
        simpa using this
      rw [this] at hinv
      simp [dclStep, hinv]
    | readHit => simpa [dclStep] using hinv
    | readMiss => simpa [dclStep] using hinv
    | recheckHit => simpa [dclStep] using hinv

theorem dclRun_counter_eq (run : List (Nat × DclEvent)) (s : DclState) :
    (dclRun s run).counter
      = s.counter + (run.filter (fun p => p.2 == DclEvent.create)).length := by
  induction run generalizing s with
  | nil => rfl
  | cons e es ih =>
    rw [dclRun_cons, ih, List.filter_cons]
    cases he : e.2 <;> simp [dclStep, he]
    omega

theorem dclRun_present_of_event (run : List (Nat × DclEvent)) (s : DclState)
    (hv : dclRunValid s run = true)
    (hex : ∃ p ∈ run, p.2 ≠ DclEvent.readMiss) :
    (dclRun s run).present = true := by
  induction run generalizing s with
  | nil => simp at hex
  | cons e es ih =>
    rw [dclRunValid_cons, Bool.and_eq_true] at hv
    rw [dclRun_cons]
    rcases hex with ⟨p, hp, hpne⟩
    rcases List.mem_cons.mp hp with rfl | hp
    · cases he : p.2 with
      | readMiss => exact absurd he hpne
      | readHit =>
        apply dclRun_present_mono
        have := hv.1
        rw [he, dclEventValid] at this
        simp [dclStep, he, this]
      | recheckHit =>
        apply dclRun_present_mono
        have := hv.1
        rw [he, dclEventValid] at this
        simp [dclStep, he, this]
      | create =>
        apply dclRun_present_mono
        simp [dclStep, he]
    · exact ih _ hv.2 ⟨p, hp, hpne⟩

theorem completeTrace_cases {es : List DclEvent} (hc : completeTrace es = true) :
    es = [DclEvent.readHit] ∨ es = [DclEvent.readMiss, DclEvent.recheckHit]
      ∨ es = [DclEvent.readMiss, DclEvent.create] := by
  rw [completeTrace, Bool.or_eq_true, Bool.or_eq_true] at hc
  rcases hc with (hc | hc) | hc
  · exact Or.inl (by simpa using hc)
  · exact Or.inr (Or.inl (by simpa using hc))
  · exact Or.inr (Or.inr (by simpa using hc))

theorem exists_event_of_completeTrace (t : Nat) (run : List (Nat × DclEvent))
    (hc : completeTrace (threadTrace t run) = true) :
    ∃ p ∈ run, p.2 ≠ DclEvent.readMiss := by
  have hev : ∃ e ∈ threadTrace t run, e ≠ DclEvent.readMiss := by
    rcases completeTrace_cases hc with h | h | h <;> rw [h]
    · exact ⟨DclEvent.readHit, by simp⟩
    · exact ⟨DclEvent.recheckHit, by simp⟩
    · exact ⟨DclEvent.create, by simp⟩
  rcases hev with ⟨e, he, hne⟩
  rw [threadTrace] at he
  rcases List.mem_map.mp he with ⟨p, hp, hpe⟩
  exact ⟨p, List.mem_of_mem_filter hp, by rw [hpe]; exact hne⟩

/-- C9: in every valid interleaving of `n ≥ 1` threads each completing
`getOrAddListForSender` for one brand-new sender (each thread's projected
trace is a fast hit, or a miss followed by a locked re-check hit, or a miss
followed by creation), the sender's list ends up published, exactly one
`create` step occurs in the whole run — every thread therefore operates on
that single list — and the live-sender counter ends at 1. -/
theorem c9_dcl_single_creation (n : Nat) (run : List (Nat × DclEvent))
    (hn : 1 ≤ n)
    (hvalid : dclRunValid { present := false, counter := 0 } run = true)
    (hthreads : ∀ t, t < n → completeTrace (threadTrace t run) = true) :
    (dclRun { present := false, counter := 0 } run).present = true ∧
    (dclRun { present := false, counter := 0 } run).counter = 1 ∧
    (run.filter (fun p => p.2 == DclEvent.create)).length = 1 := by
  have h0 := hthreads 0 hn
  have hex := exists_event_of_completeTrace 0 run h0
  have hpres := dclRun_present_of_event run _ hvalid hex
  have hctr := dclRun_inv run _ hvalid (by simp)
  rw [hpres] at hctr
  simp only [if_true] at hctr
  have hcount := dclRun_counter_eq run { present := false, counter := 0 }
  simp only [Nat.zero_add] at hcount
  exact ⟨hpres, hctr, by omega⟩

/-- Witness for C9: one thread, fast-path miss then locked creation. -/
theorem c9_dcl_single_creation_witness :
    (dclRun { present := false, counter := 0 }
        [(0, DclEvent.readMiss), (0, DclEvent.create)]).present = true ∧
    (dclRun { present := false, counter := 0 }
        [(0, DclEvent.readMiss), (0, DclEvent.create)]).counter = 1 ∧
    ([(0, DclEvent.readMiss), (0, DclEvent.create)].filter
      (fun p => p.2 == DclEvent.create)).length = 1 :=
  c9_dcl_single_creation 1 [(0, DclEvent.readMiss), (0, DclEvent.create)]
    (by decide) (by decide)
    (fun t ht => by
      have ht0 : t = 0 := by omega
      subst ht0
      decide)
